import Mathlib

/-!
A shallow embedding of `enumeration.py` (mountainstorm/enumeration): a
declarative enumeration type whose metaclass builds bidirectional lookup
tables (`_namesByValue`, `_valuesByName`) at class-creation time, and whose
instances are fixed-width integers serialized via a configured ctype.

Python dicts are modelled as insertion-ordered association lists; the
`_namesByValue` entry for a value is modelled as a `List String` (the source
stores a single `str` which becomes a tuple of strings once a value gets a
second name — the list of names in discovery order). `None` results are
modelled as `Option.none`, raised exceptions as `Option.none` / `Except.error`.
-/

set_option autoImplicit false

namespace Enumeration

/-- One entry of `_values_`: a bare string name, or a `(name, explicitValue)`
2-tuple (source lines 135-141: `isinstance(v, tuple)` with `len(v) == 2`). -/
inductive Member where
  | bare (name : String)
  | pair (name : String) (value : Int)
deriving DecidableEq

/-- The two lookup tables the metaclass `__init__` builds: `_namesByValue`
(value to one-or-more names, insertion ordered) and `_valuesByName`
(name to value, last write wins). -/
structure Tables where
  namesByValue : List (Int × List String)
  valuesByName : List (String × Int)
deriving DecidableEq

/-- Python dict key lookup over an insertion-ordered association list (keys
are unique in every list the builder produces, as in a dict). -/
def alookup {α β : Type} [DecidableEq α] (a : α) : List (α × β) → Option β
  | [] => none
  | (k, b) :: rest => if k = a then some b else alookup a rest

/-- Source lines 143-152: insert `n` under value `v` in `_namesByValue` —
if the key exists, append `n` to its (tuple of) names, else create a new
entry holding the single name. Keeps dict insertion order. -/
def insertValueName (al : List (Int × List String)) (v : Int) (n : String) :
    List (Int × List String) :=
  match al with
  | [] => [(v, [n])]
  | (k, ns) :: rest =>
    if k = v then (k, ns ++ [n]) :: rest else (k, ns) :: insertValueName rest v n

/-- Source line 153: `cls._valuesByName[curName] = curValue` — Python dict
assignment: overwrite in place if the key exists, else append. -/
def dictInsert (al : List (String × Int)) (n : String) (v : Int) :
    List (String × Int) :=
  match al with
  | [] => [(n, v)]
  | (k, w) :: rest =>
    if k = n then (k, v) :: rest else (k, w) :: dictInsert rest n v

/-- One loop iteration of the table-building walk (source lines 135-154):
pick the name and value this entry assigns, insert into both tables, and
advance the running counter to the assigned value plus one. -/
def step (st : Tables × Int) (m : Member) : Tables × Int :=
  let t := st.1
  let cur := st.2
  let nv : String × Int :=
    match m with
    | .bare n => (n, cur)
    | .pair n v => (n, v)
  (⟨insertValueName t.namesByValue nv.2 nv.1,
    dictInsert t.valuesByName nv.1 nv.2⟩, nv.2 + 1)

/-- The metaclass `__init__` table construction (source lines 120-154),
walking `_values_` with the running counter starting at `_start_value_`
(default 0). -/
def buildTables (members : List Member) (startValue : Int := 0) : Tables :=
  (members.foldl step (⟨[], []⟩, startValue)).1

/-- The flattened assignment walk of source lines 134-154, separated from the
table insertion: the ordered `(name, value)` pairs the loop assigns, with the
running counter `curValue` becoming the assigned value plus one after every
entry. -/
def assignList : List Member → Int → List (String × Int)
  | [], _ => []
  | .bare n :: rest, cur => (n, cur) :: assignList rest (cur + 1)
  | .pair n v :: rest, _ => (n, v) :: assignList rest (v + 1)

/-- Folding the two table insertions of lines 143-153 over an explicit
`(name, value)` assignment list, starting from given tables. -/
def foldAssign (t0 : Tables) (l : List (String × Int)) : Tables :=
  l.foldl
    (fun t p =>
      ⟨insertValueName t.namesByValue p.2 p.1, dictInsert t.valuesByName p.1 p.2⟩)
    t0

/-- The tables obtained by inserting an assignment list into empty tables. -/
def tablesOf (l : List (String × Int)) : Tables :=
  foldAssign ⟨[], []⟩ l

/-- The names an assignment list associates with value `v`, in assignment
(discovery) order; `none` when no assignment uses `v`. -/
def groupNames (l : List (String × Int)) (v : Int) : Option (List String) :=
  match (l.filter (fun p => p.2 = v)).map Prod.fst with
  | [] => none
  | ns => some ns

/-- The value of the last assignment to name `n` in an assignment list
(Python dict writes are last-write-wins). -/
def lastVal : List (String × Int) → String → Option Int
  | [], _ => none
  | (n, v) :: rest, m =>
    match lastVal rest m with
    | some w => some w
    | none => if n = m then some v else none

/-- The names a `_namesByValue` association list stores under value `v`,
concatenated in list order (the empty list when `v` is not a key); on a
unique-key list this is exactly the stored alias entry. -/
def groupOf (gl : List (Int × List String)) (v : Int) : List String :=
  gl.flatMap (fun p => if p.1 = v then p.2 else [])

/-- Append of optional name lists (`none` is the missing entry). -/
def optAppend : Option (List String) → Option (List String) → Option (List String)
  | none, b => b
  | some x, none => some x
  | some x, some y => some (x ++ y)

/-- Left-biased choice of optional values. -/
def optOr {α : Type} : Option α → Option α → Option α
  | some x, _ => some x
  | none, b => b

/-- Dict lookup in `_namesByValue` (first matching key; the build keeps keys
unique, and Python dicts have unique keys). -/
def lookupNames (t : Tables) (v : Int) : Option (List String) :=
  alookup v t.namesByValue

/-- Dict lookup in `_valuesByName`. -/
def lookupValue (t : Tables) (n : String) : Option Int :=
  alookup n t.valuesByName

/-- Python `name.startswith("_")` as used on lines 158 and 174: true iff the
first character is an underscore. -/
def startsWithUnderscore (s : String) : Bool :=
  match s.data with
  | [] => false
  | c :: _ => c = '_'

/-- A lookup key as passed to `__contains__` / `__getitem__`: either an
integer raw value or a string. -/
inductive LookupKey where
  | int (v : Int)
  | str (s : String)
deriving DecidableEq

/-- Bare dict membership-lookup on `_namesByValue` with a possibly non-integer
key: the table is keyed by integers, so a string key never matches. -/
def dictMemLookup (t : Tables) (k : LookupKey) : Option (List String) :=
  match k with
  | .int v => lookupNames t v
  | .str _ => none

/-- `EnumerationType.__contains__` (source lines 156-161): `None` unless the
key is not an underscore-prefixed string and is present in `_namesByValue`. -/
def containsLookup (t : Tables) (k : LookupKey) : Option (List String) :=
  match k with
  | .str s => if startsWithUnderscore s then none else dictMemLookup t (.str s)
  | .int v => dictMemLookup t (.int v)

/-- `EnumerationType.__getitem__` (source lines 179-183): plain
`_namesByValue` lookup, `None` on a miss. -/
def getitemLookup (t : Tables) (k : LookupKey) : Option (List String) :=
  dictMemLookup t k

/-- `EnumerationType.__getattr__` (source lines 172-177): `None` unless the
name has no underscore prefix, the class has `_values_` in its dict, and the
name is in `_valuesByName`. -/
def typeGetattr (t : Tables) (hasValues : Bool) (name : String) : Option Int :=
  if startsWithUnderscore name = false ∧ hasValues = true then
    lookupValue t name
  else none

/-- `EnumerationType.__iter__` (source lines 163-170) materialized as a list:
walk the keys of `_namesByValue` in sorted (ascending) order and yield one
`(name, value)` pair per stored name. -/
def iterate (t : Tables) : List (String × Int) :=
  (t.namesByValue.insertionSort (fun a b => a.1 ≤ b.1)).flatMap
    (fun p => p.2.map (fun n => (n, p.1)))

/-- An `Enumeration` instance: an integer tagged with its owning type
(identified by class name). Construction performs no validation. -/
structure EnumInstance where
  typeName : String
  value : Int
deriving DecidableEq

/-- Constructing an instance from an integer (no validation: total). -/
def mkInstance (tyName : String) (v : Int) : EnumInstance :=
  ⟨tyName, v⟩

/-- `Enumeration.__getattr__` for `key == "name"` (source lines 193-196):
`cls._namesByValue[self.value]`, a `KeyError` (here `none`) when the held
value was never declared. The stored entry is returned as-is: a single
declared name, or the whole alias tuple. -/
def instanceName (t : Tables) (v : Int) : Option (List String) :=
  lookupNames t v

/-- `EnumerationType.__repr__` (source lines 185-186). -/
def typeRepr (tyName : String) : String :=
  "<Enumeration " ++ tyName ++ ">"

/-- How Python renders the stored `_namesByValue` entry with `"%s"`: a single
name prints as itself; an alias tuple prints as a parenthesized tuple of
quoted names. -/
def renderNames (ns : List String) : String :=
  match ns with
  | [n] => n
  | _ =>
    "(" ++ String.intercalate ", " (ns.map (fun n => "\x27" ++ n ++ "\x27")) ++ ")"

/-- `Enumeration.__repr__` (source lines 201-202):
`"<value %s=%d of %r>"` — it reads `self.name` first, so it propagates the
same no-such-value failure as the `name` property. -/
def instanceRepr (t : Tables) (tyName : String) (v : Int) : Option String :=
  match instanceName t v with
  | none => none
  | some ns =>
    some ("<value " ++ renderNames ns ++ "=" ++ toString v ++ " of " ++
      typeRepr tyName ++ ">")

/-- A `from_param` argument: an enumeration instance (of some class), or a
raw integer. -/
inductive Param where
  | inst (tyName : String) (value : Int)
  | raw (value : Int)
deriving DecidableEq

/-- `Enumeration.from_param` (source lines 204-214): same-class instance
passes through unchanged, a different enumeration class raises `ValueError`,
a raw integer is wrapped into a fresh instance of `cls`. -/
def from_param (cls : String) (p : Param) : Except String EnumInstance :=
  match p with
  | .inst ty v =>
    if ty = cls then .ok ⟨ty, v⟩
    else .error "Can\x27t mix enumeration values"
  | .raw v => .ok (mkInstance cls v)

/-- The configured storage ctype: a byte width and a signedness flag
(e.g. `c_uint32` is width 4 unsigned; the default `c_long` is width 8 signed
on the original 64-bit host). -/
structure CType where
  width : Nat
  signed : Bool
deriving DecidableEq

/-- Source lines 113-116: the effective ctype is `_ctype_` when declared,
else `c_long`. -/
def effectiveCType (declared : Option CType) (c_long : CType) : CType :=
  match declared with
  | some ct => ct
  | none => c_long

/-- Little-endian base-256 digits of a natural number, exactly `w` bytes. -/
def natToBytes : Nat → Nat → List Nat
  | 0, _ => []
  | w + 1, x => x % 256 :: natToBytes w (x / 256)

/-- Recompose a little-endian byte list into a natural number. -/
def bytesToNat : List Nat → Nat
  | [] => 0
  | b :: rest => b + 256 * bytesToNat rest

/-- Modelled from the spec: the binary write of an instance (delegated by the
source to the ctypes layer, not present under src/) — "serializes the integer
value as exactly `storageWidth` bytes, native byte order/signedness",
i.e. the value's two's-complement residue in `storageWidth` little-endian
bytes. -/
def encode (ct : CType) (v : Int) : List Nat :=
  natToBytes ct.width (v.emod (2 ^ (8 * ct.width))).toNat

/-- Modelled from the spec: the binary read into a fresh instance (delegated
by the source to the ctypes layer, not present under src/) — consumes exactly
`storageWidth` bytes (fewer is a decode failure) and reinterprets them with
the configured signedness. -/
def decode (ct : CType) (bs : List Nat) : Option Int :=
  if bs.length = ct.width then
    let u := bytesToNat bs
    if ct.signed = true ∧ 2 ^ (8 * ct.width - 1) ≤ u then
      some ((u : Int) - 2 ^ (8 * ct.width))
    else
      some (u : Int)
  else none

/-- The integer values representable in the configured storage width. -/
def representable (ct : CType) (v : Int) : Prop :=
  if ct.signed then
    -(2 ^ (8 * ct.width - 1)) ≤ v ∧ v < 2 ^ (8 * ct.width - 1)
  else
    0 ≤ v ∧ v < 2 ^ (8 * ct.width)

instance (ct : CType) (v : Int) : Decidable (representable ct v) := by
  unfold representable
  split <;> exact inferInstance

/-- The `MH_FILETYPE` example from the source docstring and `__main__`. -/
def mhFiletypeMembers : List Member :=
  [.bare "MH_UNKNOWN", .pair "MH_EXECUTE" 2, .bare "MH_FVMLIB"]

/-- The tables the metaclass builds for `MH_FILETYPE`. -/
def mhFiletype : Tables :=
  buildTables mhFiletypeMembers 0

/-! ### Characterization of the table construction -/

theorem alookup_insertValueName (al : List (Int × List String)) (v : Int)
    (n : String) (x : Int) :
    alookup x (insertValueName al v n) =
      if x = v then some ((alookup v al).getD [] ++ [n]) else alookup x al := by
  induction al with
  | nil =>
    by_cases h : x = v
    · subst h; simp [insertValueName, alookup]
    · simp [insertValueName, alookup, h, Ne.symm h]
  | cons p rest ih =>
    obtain ⟨k, ns⟩ := p
    by_cases hkv : k = v
    · subst hkv
      by_cases hxk : x = k
      · subst hxk; simp [insertValueName, alookup]
      · simp [insertValueName, alookup, hxk, Ne.symm hxk]
    · by_cases hkx : k = x
      · subst hkx
        simp [insertValueName, alookup, hkv]
      · simp [insertValueName, alookup, hkv, hkx, ih, Ne.symm hkv]

theorem alookup_dictInsert (al : List (String × Int)) (n : String) (v : Int)
    (m : String) :
    alookup m (dictInsert al n v) = if n = m then some v else alookup m al := by
  induction al with
  | nil => simp [dictInsert, alookup]
  | cons p rest ih =>
    obtain ⟨k, w⟩ := p
    by_cases hkn : k = n
    · subst hkn
      by_cases hkm : k = m <;> simp [dictInsert, alookup, hkm]
    · by_cases hkm : k = m
      · subst hkm
        have hnk : ¬ n = k := fun h => hkn h.symm
        simp [dictInsert, alookup, hkn, hnk]
      · simp [dictInsert, alookup, hkn, hkm, ih]

theorem groupNames_cons (n : String) (w : Int) (rest : List (String × Int))
    (v : Int) :
    groupNames ((n, w) :: rest) v =
      if w = v then some (n :: (groupNames rest v).getD [])
      else groupNames rest v := by
  by_cases h : w = v
  · cases hf : (rest.filter (fun p => p.2 = v)).map Prod.fst with
    | nil => simp [groupNames, List.filter_cons, h, hf]
    | cons a l => simp [groupNames, List.filter_cons, h, hf]
  · simp [groupNames, List.filter_cons, h]

theorem lookupNames_foldAssign (l : List (String × Int)) (t0 : Tables)
    (v : Int) :
    lookupNames (foldAssign t0 l) v =
      optAppend (lookupNames t0 v) (groupNames l v) := by
  induction l generalizing t0 with
  | nil =>
    cases h : lookupNames t0 v <;>
      simp [foldAssign, groupNames, optAppend, h]
  | cons p rest ih =>
    obtain ⟨n, w⟩ := p
    have hstep : foldAssign t0 ((n, w) :: rest) =
        foldAssign ⟨insertValueName t0.namesByValue w n,
          dictInsert t0.valuesByName n w⟩ rest := rfl
    rw [hstep, ih, groupNames_cons]
    have hins : lookupNames
        (⟨insertValueName t0.namesByValue w n,
          dictInsert t0.valuesByName n w⟩ : Tables) v =
        if v = w then some ((lookupNames t0 w).getD [] ++ [n])
        else lookupNames t0 v := alookup_insertValueName _ _ _ _
    rw [hins]
    by_cases h : w = v
    · subst h
      cases hl : lookupNames t0 w <;>
        cases hg : groupNames rest w <;>
          simp [optAppend, hl, hg, lookupNames]
    · have h' : ¬ v = w := fun hh => h hh.symm
      simp [h, h']

theorem lookupValue_foldAssign (l : List (String × Int)) (t0 : Tables)
    (m : String) :
    lookupValue (foldAssign t0 l) m = optOr (lastVal l m) (lookupValue t0 m) := by
  induction l generalizing t0 with
  | nil => cases h : lookupValue t0 m <;> simp [foldAssign, lastVal, optOr, h]
  | cons p rest ih =>
    obtain ⟨n, w⟩ := p
    have hstep : foldAssign t0 ((n, w) :: rest) =
        foldAssign ⟨insertValueName t0.namesByValue w n,
          dictInsert t0.valuesByName n w⟩ rest := rfl
    rw [hstep, ih]
    have hins : lookupValue
        (⟨insertValueName t0.namesByValue w n,
          dictInsert t0.valuesByName n w⟩ : Tables) m =
        if n = m then some w else lookupValue t0 m := alookup_dictInsert _ _ _ _
    rw [hins]
    cases hr : lastVal rest m with
    | some x => simp [lastVal, optOr, hr]
    | none =>
      by_cases hnm : n = m <;> simp [lastVal, optOr, hr, hnm]

theorem foldl_step_eq (members : List Member) :
    ∀ (t0 : Tables) (c : Int),
      (List.foldl step (t0, c) members).1 = foldAssign t0 (assignList members c) := by
  induction members with
  | nil => intro t0 c; rfl
  | cons m rest ih =>
    intro t0 c
    cases m with
    | bare n => simpa [step, assignList, foldAssign] using ih _ (c + 1)
    | pair n v => simpa [step, assignList, foldAssign] using ih _ (v + 1)

theorem buildTables_eq (members : List Member) (s : Int) :
    buildTables members s = tablesOf (assignList members s) :=
  foldl_step_eq members ⟨[], []⟩ s

theorem lookupNames_buildTables (members : List Member) (s v : Int) :
    lookupNames (buildTables members s) v = groupNames (assignList members s) v := by
  rw [buildTables_eq]
  have h := lookupNames_foldAssign (assignList members s) ⟨[], []⟩ v
  have h0 : lookupNames (⟨[], []⟩ : Tables) v = none := rfl
  rw [h0] at h
  simpa [optAppend, tablesOf] using h

theorem lookupValue_buildTables (members : List Member) (s : Int) (m : String) :
    lookupValue (buildTables members s) m = lastVal (assignList members s) m := by
  rw [buildTables_eq]
  have h := lookupValue_foldAssign (assignList members s) ⟨[], []⟩ m
  have h0 : lookupValue (⟨[], []⟩ : Tables) m = none := rfl
  rw [h0] at h
  cases hr : lastVal (assignList members s) m <;>
    simpa [optOr, tablesOf, hr] using h

theorem lastVal_mem (l : List (String × Int)) (m : String) (v : Int)
    (h : lastVal l m = some v) : (m, v) ∈ l := by
  induction l with
  | nil => simp [lastVal] at h
  | cons p rest ih =>
    obtain ⟨n, w⟩ := p
    rw [lastVal] at h
    cases hr : lastVal rest m with
    | some x =>
      rw [hr] at h
      exact List.mem_cons_of_mem _ (ih (hr.trans h))
    | none =>
      rw [hr] at h
      by_cases hnm : n = m
      · rw [if_pos hnm] at h
        subst hnm
        obtain rfl : w = v := by injection h
        exact List.mem_cons_self _ _
      · rw [if_neg hnm] at h
        exact absurd h (by simp)

theorem lastVal_eq_of_uniq (l : List (String × Int)) (m : String) (v : Int)
    (hmem : (m, v) ∈ l) (huniq : ∀ p ∈ l, p.1 = m → p.2 = v) :
    lastVal l m = some v := by
  induction l with
  | nil => cases hmem
  | cons p rest ih =>
    obtain ⟨n, w⟩ := p
    rw [lastVal]
    cases hr : lastVal rest m with
    | some x =>
      have hx : (m, x) ∈ rest := lastVal_mem rest m x hr
      have := huniq (m, x) (List.mem_cons_of_mem _ hx) rfl
      simp_all
    | none =>
      rcases List.mem_cons.1 hmem with heq | htail
      · obtain ⟨rfl, rfl⟩ : n = m ∧ w = v := by
          constructor <;> injection heq <;> simp_all
        simp
      · have := ih htail (fun p hp => huniq p (List.mem_cons_of_mem _ hp))
        simp_all

theorem groupNames_mem (l : List (String × Int)) (n : String) (v : Int)
    (h : (n, v) ∈ l) : ∃ ns, groupNames l v = some ns ∧ n ∈ ns := by
  induction l with
  | nil => cases h
  | cons p rest ih =>
    obtain ⟨n', w⟩ := p
    rw [groupNames_cons]
    rcases List.mem_cons.1 h with heq | htail
    · obtain ⟨h1, h2⟩ : n' = n ∧ w = v := by
        constructor <;> injection heq <;> simp_all
      subst h1; subst h2
      exact ⟨n' :: (groupNames rest w).getD [], by simp, by simp⟩
    · obtain ⟨ns, hns, hmem⟩ := ih htail
      by_cases hw : w = v
      · exact ⟨n' :: (groupNames rest v).getD [], by simp [hw],
          by simp [hns, hmem]⟩
      · exact ⟨ns, by simp [hw, hns], hmem⟩

theorem groupNames_none (l : List (String × Int)) (v : Int)
    (h : v ∉ l.map Prod.snd) : groupNames l v = none := by
  induction l with
  | nil => rfl
  | cons p rest ih =>
    obtain ⟨n, w⟩ := p
    rw [groupNames_cons]
    have hw : ¬ w = v := by
      intro hh
      exact h (by simp [hh])
    rw [if_neg hw]
    exact ih (fun hh => h (by simp at hh ⊢; exact Or.inr hh))

theorem groupNames_ne_nil (l : List (String × Int)) (v : Int)
    (ns : List String) (h : groupNames l v = some ns) : ns ≠ [] := by
  induction l generalizing ns with
  | nil => simp [groupNames] at h
  | cons p rest ih =>
    obtain ⟨n, w⟩ := p
    rw [groupNames_cons] at h
    by_cases hw : w = v
    · rw [if_pos hw] at h
      obtain rfl : n :: (groupNames rest v).getD [] = ns := by injection h
      simp
    · rw [if_neg hw] at h
      exact ih ns h

theorem groupNames_eq_filter (l : List (String × Int)) (v : Int)
    (ns : List String) (h : groupNames l v = some ns) :
    ns = (l.filter (fun p => p.2 = v)).map Prod.fst := by
  unfold groupNames at h
  rcases hf : (l.filter (fun p => p.2 = v)).map Prod.fst with _ | ⟨a, m⟩
  · rw [hf] at h; cases h
  · rw [hf] at h
    injection h with h'
    rw [hf]
    exact h'.symm

theorem groupNames_of_filter_singleton (l : List (String × Int)) (v : Int)
    (n : String) (h : (l.filter (fun p => p.2 = v)).map Prod.fst = [n]) :
    groupNames l v = some [n] := by
  unfold groupNames
  rw [h]

theorem pair_mem_assignList (members : List Member) (n : String) (v : Int)
    (h : Member.pair n v ∈ members) :
    ∀ c : Int, (n, v) ∈ assignList members c := by
  induction members with
  | nil => cases h
  | cons m rest ih =>
    intro c
    rcases List.mem_cons.1 h with heq | htail
    · subst heq
      simp [assignList]
    · cases m with
      | bare n' => exact List.mem_cons_of_mem _ (ih htail (c + 1))
      | pair n' v' => exact List.mem_cons_of_mem _ (ih htail (v' + 1))

/-! ### Sortedness of iteration -/

theorem pairwise_snd_map_const (ns : List String) (v : Int) :
    List.Pairwise (fun a b : String × Int => a.2 ≤ b.2)
      (ns.map (fun n => (n, v))) := by
  induction ns with
  | nil => simp
  | cons n rest ih =>
    simp only [List.map_cons, List.pairwise_cons]
    refine ⟨fun b hb => ?_, ih⟩
    obtain ⟨m, _, rfl⟩ := List.mem_map.1 hb
    simp

theorem pairwise_snd_flatMap (gl : List (Int × List String))
    (h : List.Pairwise (fun a b : Int × List String => a.1 ≤ b.1) gl) :
    List.Pairwise (fun a b : String × Int => a.2 ≤ b.2)
      (gl.flatMap (fun p => p.2.map (fun n => (n, p.1)))) := by
  induction gl with
  | nil => simp
  | cons p rest ih =>
    simp only [List.flatMap_cons]
    rw [List.pairwise_append]
    refine ⟨pairwise_snd_map_const p.2 p.1, ih (List.Pairwise.sublist (by simp) h), ?_⟩
    intro a ha b hb
    obtain ⟨m, _, rfl⟩ := List.mem_map.1 ha
    obtain ⟨q, hq, hbq⟩ := List.mem_flatMap.1 hb
    obtain ⟨m', _, rfl⟩ := List.mem_map.1 hbq
    have hle : p.1 ≤ q.1 := (List.pairwise_cons.1 h).1 q hq
    simpa using hle

theorem iterate_pairwise (t : Tables) :
    List.Pairwise (fun a b : String × Int => a.2 ≤ b.2) (iterate t) := by
  apply pairwise_snd_flatMap
  haveI : IsTotal (Int × List String) (fun a b => a.1 ≤ b.1) :=
    ⟨fun a b => le_total a.1 b.1⟩
  haveI : IsTrans (Int × List String) (fun a b => a.1 ≤ b.1) :=
    ⟨fun a b c hab hbc => le_trans hab hbc⟩
  exact List.sorted_insertionSort _ _

theorem alookup_some_mem {α β : Type} [DecidableEq α] (gl : List (α × β))
    (x : α) (b : β) (h : alookup x gl = some b) : (x, b) ∈ gl := by
  induction gl with
  | nil => cases h
  | cons p rest ih =>
    obtain ⟨k, c⟩ := p
    rw [alookup] at h
    by_cases hk : k = x
    · rw [if_pos hk] at h
      injection h with h'
      subst hk
      subst h'
      exact List.mem_cons_self _ _
    · rw [if_neg hk] at h
      exact List.mem_cons_of_mem _ (ih h)

theorem alookup_none_not_mem {α β : Type} [DecidableEq α] (gl : List (α × β))
    (x : α) (h : alookup x gl = none) : x ∉ gl.map Prod.fst := by
  induction gl with
  | nil => simp
  | cons p rest ih =>
    obtain ⟨k, c⟩ := p
    rw [alookup] at h
    by_cases hk : k = x
    · rw [if_pos hk] at h
      cases h
    · rw [if_neg hk] at h
      simp only [List.map_cons, List.mem_cons]
      rintro (hc | hc)
      · exact hk hc.symm
      · exact ih h hc

theorem mem_keys_insertValueName (al : List (Int × List String)) (v : Int)
    (n : String) (x : Int) :
    x ∈ (insertValueName al v n).map Prod.fst ↔
      x = v ∨ x ∈ al.map Prod.fst := by
  induction al with
  | nil => simp [insertValueName]
  | cons p rest ih =>
    obtain ⟨k, ns⟩ := p
    by_cases hk : k = v
    · subst hk
      simp [insertValueName]
    · simp [insertValueName, hk, ih]
      tauto

theorem nodup_keys_insertValueName (al : List (Int × List String)) (v : Int)
    (n : String) (h : (al.map Prod.fst).Nodup) :
    ((insertValueName al v n).map Prod.fst).Nodup := by
  induction al with
  | nil => simp [insertValueName]
  | cons p rest ih =>
    obtain ⟨k, ns⟩ := p
    simp only [List.map_cons, List.nodup_cons] at h
    by_cases hk : k = v
    · subst hk
      simpa [insertValueName, List.nodup_cons] using h
    · simp only [insertValueName, if_neg hk, List.map_cons, List.nodup_cons]
      refine ⟨?_, ih h.2⟩
      rw [mem_keys_insertValueName]
      rintro (hc | hc)
      · exact hk hc
      · exact h.1 hc

theorem nodup_keys_foldAssign (l : List (String × Int)) :
    ∀ t0 : Tables, (t0.namesByValue.map Prod.fst).Nodup →
      (((foldAssign t0 l).namesByValue).map Prod.fst).Nodup := by
  induction l with
  | nil => intro t0 h; exact h
  | cons p rest ih =>
    intro t0 h
    exact ih ⟨insertValueName t0.namesByValue p.2 p.1,
      dictInsert t0.valuesByName p.1 p.2⟩
      (nodup_keys_insertValueName _ _ _ h)

theorem nodup_keys_buildTables (members : List Member) (s : Int) :
    (((buildTables members s).namesByValue).map Prod.fst).Nodup := by
  rw [buildTables_eq]
  exact nodup_keys_foldAssign (assignList members s) ⟨[], []⟩ (by simp)

theorem groupOf_eq_nil (gl : List (Int × List String)) (v : Int)
    (h : v ∉ gl.map Prod.fst) : groupOf gl v = [] := by
  induction gl with
  | nil => rfl
  | cons p rest ih =>
    simp only [List.map_cons, List.mem_cons, not_or] at h
    have hp : ¬ p.1 = v := fun hc => h.1 hc.symm
    have hr := ih h.2
    simp only [groupOf, List.flatMap_cons, if_neg hp, List.nil_append]
    simpa [groupOf] using hr

theorem groupOf_eq_of_nodup (gl : List (Int × List String)) (v : Int)
    (ns : List String) (hnd : (gl.map Prod.fst).Nodup) (hmem : (v, ns) ∈ gl) :
    groupOf gl v = ns := by
  induction gl with
  | nil => cases hmem
  | cons p rest ih =>
    obtain ⟨k, ms⟩ := p
    simp only [List.map_cons, List.nodup_cons] at hnd
    rcases List.mem_cons.1 hmem with heq | htail
    · obtain ⟨h1, h2⟩ : v = k ∧ ns = ms := by
        constructor <;> injection heq <;> simp_all
      subst h1
      subst h2
      have hrest : groupOf rest v = [] := groupOf_eq_nil rest v hnd.1
      simp [groupOf, List.flatMap_cons]
      simpa [groupOf] using hrest
    · have hkv : ¬ k = v := by
        intro hc
        subst hc
        exact hnd.1 (by simpa using List.mem_map_of_mem Prod.fst htail)
      simp [groupOf, List.flatMap_cons, hkv]
      simpa [groupOf] using ih hnd.2 htail

theorem filter_map_pair (ns : List String) (w v : Int) :
    ((ns.map (fun n => (n, w))).filter (fun q => q.2 = v)).map Prod.fst =
      if w = v then ns else [] := by
  induction ns with
  | nil => simp
  | cons n rest ih =>
    by_cases h : w = v
    · subst h
      simp [List.filter_cons, ih]
    · simp [List.filter_cons, h, ih]

theorem filter_expand_eq_groupOf (gl : List (Int × List String)) (v : Int) :
    ((gl.flatMap (fun p => p.2.map (fun n => (n, p.1)))).filter
      (fun q => q.2 = v)).map Prod.fst = groupOf gl v := by
  induction gl with
  | nil => rfl
  | cons p rest ih =>
    simp only [groupOf, List.flatMap_cons, List.filter_append, List.map_append]
    rw [filter_map_pair]
    simp only [groupOf] at ih
    rw [ih]

theorem groupNames_none_filter (l : List (String × Int)) (v : Int)
    (h : groupNames l v = none) :
    (l.filter (fun p => p.2 = v)).map Prod.fst = [] := by
  unfold groupNames at h
  rcases hf : (l.filter (fun p => p.2 = v)).map Prod.fst with _ | ⟨a, m⟩
  · exact hf
  · rw [hf] at h
    cases h

theorem iterate_filter_eq (members : List Member) (s v : Int) :
    ((iterate (buildTables members s)).filter (fun q => q.2 = v)).map Prod.fst =
      ((assignList members s).filter (fun p => p.2 = v)).map Prod.fst := by
  have hA := filter_expand_eq_groupOf
    ((buildTables members s).namesByValue.insertionSort (fun a b => a.1 ≤ b.1)) v
  have hperm : List.Perm
      ((buildTables members s).namesByValue.insertionSort (fun a b => a.1 ≤ b.1))
      (buildTables members s).namesByValue :=
    List.perm_insertionSort _ _
  have hnd : (((buildTables members s).namesByValue).map Prod.fst).Nodup :=
    nodup_keys_buildTables members s
  have hnd' :
      ((((buildTables members s).namesByValue).insertionSort
        (fun a b => a.1 ≤ b.1)).map Prod.fst).Nodup :=
    ((hperm.map Prod.fst).nodup_iff).2 hnd
  show ((iterate (buildTables members s)).filter
      (fun q => q.2 = v)).map Prod.fst = _
  rw [iterate, hA]
  cases h : lookupNames (buildTables members s) v with
  | some ns =>
    have hmem : (v, ns) ∈ (buildTables members s).namesByValue :=
      alookup_some_mem _ _ _ h
    have hmem' : (v, ns) ∈
        (buildTables members s).namesByValue.insertionSort
          (fun a b => a.1 ≤ b.1) :=
      hperm.mem_iff.2 hmem
    rw [groupOf_eq_of_nodup _ _ _ hnd' hmem']
    have hg : groupNames (assignList members s) v = some ns := by
      rw [← lookupNames_buildTables]
      exact h
    exact groupNames_eq_filter _ _ _ hg
  | none =>
    have hnot : v ∉ ((buildTables members s).namesByValue).map Prod.fst :=
      alookup_none_not_mem _ _ h
    have hnot' : v ∉
        (((buildTables members s).namesByValue).insertionSort
          (fun a b => a.1 ≤ b.1)).map Prod.fst := by
      intro hc
      exact hnot (((hperm.map Prod.fst).mem_iff).1 hc)
    rw [groupOf_eq_nil _ _ hnot']
    have hg : groupNames (assignList members s) v = none := by
      rw [← lookupNames_buildTables]
      exact h
    exact (groupNames_none_filter _ _ hg).symm

/-! ### Fixed-width byte codec -/

theorem pow256_eq (w : Nat) : (256 : Nat) ^ w = 2 ^ (8 * w) := by
  have h : (256 : Nat) = 2 ^ 8 := by norm_num
  rw [h, ← pow_mul]

theorem length_natToBytes (w x : Nat) : (natToBytes w x).length = w := by
  induction w generalizing x with
  | zero => rfl
  | succ w ih => simp [natToBytes, ih]

theorem bytesToNat_natToBytes (w x : Nat) (h : x < 256 ^ w) :
    bytesToNat (natToBytes w x) = x := by
  induction w generalizing x with
  | zero =>
    simp [natToBytes, bytesToNat]
    simp at h
    omega
  | succ w ih =>
    have hdiv : x / 256 < 256 ^ w := by
      rw [Nat.div_lt_iff_lt_mul (by norm_num : 0 < 256)]
      calc x < 256 ^ (w + 1) := h
        _ = 256 ^ w * 256 := pow_succ 256 w
    rw [natToBytes, bytesToNat, ih _ hdiv, Nat.mod_add_div]

/-! ### Claim theorems -/

/-- C1: Definition-time value assignment — the table builder walks the
ordered member list with a running counter starting at `startValue`,
assigning each bare name the current counter value and each
`(name, explicitValue)` pair its explicit value, the counter becoming the
assigned value plus 1 after every entry; in particular `A, B, C` yields
`0, 1, 2` and `A, (B, 2), C` yields `A=0, B=2, C=3`. -/
theorem definition_time_assignment :
    (∀ (members : List Member) (s : Int),
      buildTables members s = tablesOf (assignList members s)) ∧
    (∀ (n : String) (rest : List Member) (c : Int),
      assignList (.bare n :: rest) c = (n, c) :: assignList rest (c + 1)) ∧
    (∀ (n : String) (v : Int) (rest : List Member) (c : Int),
      assignList (.pair n v :: rest) c = (n, v) :: assignList rest (v + 1)) ∧
    assignList [.bare "A", .bare "B", .bare "C"] 0 =
      [("A", 0), ("B", 1), ("C", 2)] ∧
    assignList [.bare "A", .pair "B" 2, .bare "C"] 0 =
      [("A", 0), ("B", 2), ("C", 3)] ∧
    lookupValue (buildTables [.bare "A", .pair "B" 2, .bare "C"] 0) "A" = some 0 ∧
    lookupValue (buildTables [.bare "A", .pair "B" 2, .bare "C"] 0) "B" = some 2 ∧
    lookupValue (buildTables [.bare "A", .pair "B" 2, .bare "C"] 0) "C" = some 3 :=
  ⟨buildTables_eq, fun _ _ _ => rfl, fun _ _ _ _ => rfl,
    by decide, by decide, by decide, by decide, by decide⟩

/-- C3: Iteration order — `iterate` yields `(name, value)` pairs in
ascending-value order (so each value's pairs are contiguous), and for every
enumeration type and every value the pairs yielded at that value are exactly
one per alias, carrying the aliases in declaration-discovery order (the
value's sublist of the iteration equals the assignment walk filtered to that
value); the type with values `{0: UNKNOWN, 2: EXECUTE, 3: FVMLIB}` yields
exactly the claimed list. -/
theorem iterate_ascending_order :
    (∀ t : Tables,
      List.Pairwise (fun a b : String × Int => a.2 ≤ b.2) (iterate t)) ∧
    (∀ (members : List Member) (s v : Int),
      ((iterate (buildTables members s)).filter
        (fun q => q.2 = v)).map Prod.fst =
        ((assignList members s).filter (fun p => p.2 = v)).map Prod.fst) ∧
    iterate (buildTables [.bare "UNKNOWN", .pair "EXECUTE" 2, .bare "FVMLIB"] 0) =
      [("UNKNOWN", 0), ("EXECUTE", 2), ("FVMLIB", 3)] ∧
    iterate (buildTables [.pair "A" 5, .pair "B" 5, .pair "C" 1] 0) =
      [("C", 1), ("A", 5), ("B", 5)] :=
  ⟨iterate_pairwise, iterate_filter_eq, by decide, by decide⟩

/-- C4: Alias support — when two distinct names are each declared (only) with
the same explicit value, both appear among that value's aliases in discovery
order, and each resolves through `_valuesByName` to that shared value. -/
theorem alias_support (members : List Member) (s : Int) (n1 n2 : String)
    (v : Int)
    (h1 : Member.pair n1 v ∈ members) (h2 : Member.pair n2 v ∈ members)
    (hne : n1 ≠ n2)
    (u1 : ∀ p ∈ assignList members s, p.1 = n1 → p.2 = v)
    (u2 : ∀ p ∈ assignList members s, p.1 = n2 → p.2 = v) :
    ∃ ns, lookupNames (buildTables members s) v = some ns ∧
      n1 ∈ ns ∧ n2 ∈ ns ∧
      ns = ((assignList members s).filter (fun p => p.2 = v)).map Prod.fst ∧
      lookupValue (buildTables members s) n1 = some v ∧
      lookupValue (buildTables members s) n2 = some v := by
  have hm1 : (n1, v) ∈ assignList members s := pair_mem_assignList members n1 v h1 s
  have hm2 : (n2, v) ∈ assignList members s := pair_mem_assignList members n2 v h2 s
  obtain ⟨ns, hns, hmem1⟩ := groupNames_mem (assignList members s) n1 v hm1
  obtain ⟨ns', hns', hmem2⟩ := groupNames_mem (assignList members s) n2 v hm2
  have heq : ns' = ns := by
    rw [hns] at hns'
    injection hns' with h
    exact h.symm
  rw [heq] at hmem2
  refine ⟨ns, ?_, hmem1, hmem2, ?_, ?_, ?_⟩
  · rw [lookupNames_buildTables]; exact hns
  · exact groupNames_eq_filter _ _ _ hns
  · rw [lookupValue_buildTables]
    exact lastVal_eq_of_uniq _ _ _ hm1 u1
  · rw [lookupValue_buildTables]
    exact lastVal_eq_of_uniq _ _ _ hm2 u2

/-- C2: Encode/decode round-trip — for every storage ctype of positive width
and every integer representable in that width (not only declared members),
encoding to `storageWidth` bytes and decoding them back reproduces the
integer exactly. -/
theorem encode_decode_roundtrip (ct : CType) (v : Int)
    (hw : 0 < ct.width) (hv : representable ct v) :
    decode ct (encode ct v) = some v := by
  have hMpos : (0 : Int) < 2 ^ (8 * ct.width) := by positivity
  have hmod0 : 0 ≤ v % 2 ^ (8 * ct.width) := Int.emod_nonneg v (ne_of_gt hMpos)
  have hmodlt : v % 2 ^ (8 * ct.width) < 2 ^ (8 * ct.width) :=
    Int.emod_lt_of_pos v hMpos
  have hcast : (((v % 2 ^ (8 * ct.width)).toNat : Int)) = v % 2 ^ (8 * ct.width) :=
    Int.toNat_of_nonneg hmod0
  have hpowcast : ((2 ^ (8 * ct.width) : Nat) : Int) = 2 ^ (8 * ct.width) := by
    push_cast
    rfl
  have hult : (v % 2 ^ (8 * ct.width)).toNat < 2 ^ (8 * ct.width) := by omega
  have hbytes : bytesToNat (encode ct v) = (v % 2 ^ (8 * ct.width)).toNat := by
    apply bytesToNat_natToBytes
    rw [pow256_eq]
    exact hult
  have hlen : (encode ct v).length = ct.width := length_natToBytes _ _
  unfold decode
  rw [if_pos hlen, hbytes]
  cases hs : ct.signed with
  | false =>
    have hv' : 0 ≤ v ∧ v < 2 ^ (8 * ct.width) := by
      simpa [representable, hs] using hv
    have hveq : v % 2 ^ (8 * ct.width) = v := Int.emod_eq_of_lt hv'.1 hv'.2
    rw [hveq]
    simp [hs, Int.toNat_of_nonneg hv'.1]
  | true =>
    have hv' : -(2 ^ (8 * ct.width - 1)) ≤ v ∧ v < 2 ^ (8 * ct.width - 1) := by
      simpa [representable, hs] using hv
    have hHpos : (0 : Int) < 2 ^ (8 * ct.width - 1) := by positivity
    have hsplit : (2 : Int) ^ (8 * ct.width) = 2 * 2 ^ (8 * ct.width - 1) := by
      have h8 : 8 * ct.width = (8 * ct.width - 1) + 1 := by omega
      conv_lhs => rw [h8]
      rw [pow_succ]
      exact mul_comm _ _
    have hHcast : ((2 ^ (8 * ct.width - 1) : Nat) : Int) = 2 ^ (8 * ct.width - 1) := by
      push_cast
      rfl
    by_cases hvpos : 0 ≤ v
    · have hveq : v % 2 ^ (8 * ct.width) = v :=
        Int.emod_eq_of_lt hvpos (by omega)
      rw [hveq]
      have hcond : ¬ (2 ^ (8 * ct.width - 1) ≤ v.toNat) := by
        have h1 : ((v.toNat : Int)) = v := Int.toNat_of_nonneg hvpos
        omega
      simp [hs, hcond, Int.toNat_of_nonneg hvpos]
    · have hlow : 0 ≤ v + 2 ^ (8 * ct.width) := by omega
      have hhigh : v + 2 ^ (8 * ct.width) < 2 ^ (8 * ct.width) := by omega
      have hveq : v % 2 ^ (8 * ct.width) = v + 2 ^ (8 * ct.width) := by
        have h2 : (v + 2 ^ (8 * ct.width) * 1) % 2 ^ (8 * ct.width) =
            v + 2 ^ (8 * ct.width) := by
          rw [mul_one]
          exact Int.emod_eq_of_lt hlow hhigh
        rw [Int.add_mul_emod_self_left] at h2
        exact h2
      rw [hveq]
      have htn : (((v + 2 ^ (8 * ct.width)).toNat : Int)) = v + 2 ^ (8 * ct.width) :=
        Int.toNat_of_nonneg hlow
      have hcond : 2 ^ (8 * ct.width - 1) ≤ (v + 2 ^ (8 * ct.width)).toNat := by
        omega
      simp only [hs, true_and, hcond, if_pos]
      rw [htn]
      congr 1
      ring

/-- Witness for C2 at a 4-byte unsigned ctype with a value above any declared
member, and a 4-byte signed ctype with a negative value. -/
theorem encode_decode_roundtrip_witness :
    decode ⟨4, false⟩ (encode ⟨4, false⟩ 3000000000) = some 3000000000 ∧
    decode ⟨4, true⟩ (encode ⟨4, true⟩ (-5)) = some (-5) :=
  ⟨encode_decode_roundtrip ⟨4, false⟩ 3000000000 (by decide) (by decide),
   encode_decode_roundtrip ⟨4, true⟩ (-5) (by decide) (by decide)⟩

/-- Witness for C4: names `A` and `B` both declared with explicit value 5. -/
theorem alias_support_witness :
    ∃ ns, lookupNames (buildTables [.pair "A" 5, .pair "B" 5] 0) 5 = some ns ∧
      "A" ∈ ns ∧ "B" ∈ ns ∧
      ns = ((assignList [.pair "A" 5, .pair "B" 5] 0).filter
        (fun p => p.2 = 5)).map Prod.fst ∧
      lookupValue (buildTables [.pair "A" 5, .pair "B" 5] 0) "A" = some 5 ∧
      lookupValue (buildTables [.pair "A" 5, .pair "B" 5] 0) "B" = some 5 :=
  alias_support [.pair "A" 5, .pair "B" 5] 0 "A" "B" 5 (by decide) (by decide)
    (by decide) (by decide) (by decide)

/-- C5: indexLookup/membership equivalence — `__getitem__` agrees with
`__contains__` on every input: declared integer values yield the stored
name(s), undeclared values yield `None`, and underscore-prefixed string keys
always yield `None` (under both operations). -/
theorem indexLookup_membership_equiv (t : Tables) :
    (∀ k : LookupKey, getitemLookup t k = containsLookup t k) ∧
    (∀ (v : Int) (ns : List String), lookupNames t v = some ns →
      getitemLookup t (.int v) = some ns ∧ containsLookup t (.int v) = some ns) ∧
    (∀ v : Int, lookupNames t v = none →
      getitemLookup t (.int v) = none ∧ containsLookup t (.int v) = none) ∧
    (∀ s : String, startsWithUnderscore s = true →
      getitemLookup t (.str s) = none ∧ containsLookup t (.str s) = none) := by
  refine ⟨?_, ?_, ?_, ?_⟩
  · intro k
    cases k with
    | int v => rfl
    | str s =>
      by_cases h : startsWithUnderscore s <;>
        simp [getitemLookup, containsLookup, dictMemLookup, h]
  · intro v ns h
    exact ⟨h, h⟩
  · intro v h
    exact ⟨h, h⟩
  · intro s h
    exact ⟨rfl, by simp [containsLookup, h]⟩

/-- Witness for C5 on the `MH_FILETYPE` tables: declared value 2, undeclared
value 1, and the reserved-prefix key `"_values_"`. -/
theorem indexLookup_membership_equiv_witness :
    getitemLookup mhFiletype (.int 2) = some ["MH_EXECUTE"] ∧
    containsLookup mhFiletype (.int 2) = some ["MH_EXECUTE"] ∧
    getitemLookup mhFiletype (.int 1) = none ∧
    containsLookup mhFiletype (.int 1) = none ∧
    getitemLookup mhFiletype (.str "_values_") = none ∧
    containsLookup mhFiletype (.str "_values_") = none :=
  ⟨((indexLookup_membership_equiv mhFiletype).2.1 2 ["MH_EXECUTE"] (by decide)).1,
   ((indexLookup_membership_equiv mhFiletype).2.1 2 ["MH_EXECUTE"] (by decide)).2,
   ((indexLookup_membership_equiv mhFiletype).2.2.1 1 (by decide)).1,
   ((indexLookup_membership_equiv mhFiletype).2.2.1 1 (by decide)).2,
   ((indexLookup_membership_equiv mhFiletype).2.2.2 "_values_" (by decide)).1,
   ((indexLookup_membership_equiv mhFiletype).2.2.2 "_values_" (by decide)).2⟩

/-- C6: Attribute lookup absence semantics — `__getattr__` on the type
returns the declared value for a declared, non-underscore-prefixed member;
for every other non-reserved name it returns the (absent) `None` of the
`_valuesByName` lookup without raising; underscore-prefixed names get
`None`. -/
theorem attributeLookup_absence (t : Tables) (name : String) :
    (startsWithUnderscore name = false →
      typeGetattr t true name = lookupValue t name) ∧
    (∀ v : Int, startsWithUnderscore name = false →
      lookupValue t name = some v → typeGetattr t true name = some v) ∧
    (startsWithUnderscore name = false → lookupValue t name = none →
      typeGetattr t true name = none) ∧
    (startsWithUnderscore name = true → typeGetattr t true name = none) := by
  refine ⟨fun h => by simp [typeGetattr, h],
    fun v h hv => by simp [typeGetattr, h, hv],
    fun h hv => by simp [typeGetattr, h, hv],
    fun h => by simp [typeGetattr, h]⟩

/-- Witness for C6 on the `MH_FILETYPE` tables: a declared member, an unknown
plain name, and a reserved-prefix name. -/
theorem attributeLookup_absence_witness :
    typeGetattr mhFiletype true "MH_EXECUTE" = some 2 ∧
    typeGetattr mhFiletype true "BOGUS" = none ∧
    typeGetattr mhFiletype true "_start_value_" = none :=
  ⟨(attributeLookup_absence mhFiletype "MH_EXECUTE").2.1 2 (by decide) (by decide),
   (attributeLookup_absence mhFiletype "BOGUS").2.2.1 (by decide) (by decide),
   (attributeLookup_absence mhFiletype "_start_value_").2.2.2 (by decide)⟩

/-- C7: Instance name access — construction from any integer succeeds with no
validation, while the `name` property is `KeyError` (none) exactly when the
held value was never assigned by the declaration walk; when the value was
assigned it returns the stored entry, which contains every declared name for
it and is exactly `[n]` when `n` is its only declared name. -/
theorem instance_name_access (members : List Member) (s v : Int) (ty : String) :
    (mkInstance ty v).value = v ∧
    (v ∉ (assignList members s).map Prod.snd →
      instanceName (buildTables members s) v = none) ∧
    (∀ n : String, (n, v) ∈ assignList members s →
      ∃ ns, instanceName (buildTables members s) v = some ns ∧ n ∈ ns) ∧
    (∀ n : String,
      ((assignList members s).filter (fun p => p.2 = v)).map Prod.fst = [n] →
      instanceName (buildTables members s) v = some [n]) := by
  refine ⟨rfl, ?_, ?_, ?_⟩
  · intro h
    show lookupNames (buildTables members s) v = none
    rw [lookupNames_buildTables]
    exact groupNames_none _ _ h
  · intro n hn
    obtain ⟨ns, hns, hmem⟩ := groupNames_mem _ _ _ hn
    refine ⟨ns, ?_, hmem⟩
    show lookupNames (buildTables members s) v = some ns
    rw [lookupNames_buildTables]
    exact hns
  · intro n hn
    show lookupNames (buildTables members s) v = some [n]
    rw [lookupNames_buildTables]
    exact groupNames_of_filter_singleton _ _ _ hn

/-- Witness for C7 on `MH_FILETYPE`: value 99 was never declared (its `name`
access fails), value 2 was declared as `MH_EXECUTE` (its `name` access
returns exactly that name), and construction from 99 succeeds. -/
theorem instance_name_access_witness :
    (mkInstance "MH_FILETYPE" 99).value = 99 ∧
    instanceName mhFiletype 99 = none ∧
    (∃ ns, instanceName mhFiletype 2 = some ns ∧ "MH_EXECUTE" ∈ ns) ∧
    instanceName mhFiletype 2 = some ["MH_EXECUTE"] :=
  ⟨(instance_name_access mhFiletypeMembers 0 99 "MH_FILETYPE").1,
   (instance_name_access mhFiletypeMembers 0 99 "MH_FILETYPE").2.1 (by decide),
   (instance_name_access mhFiletypeMembers 0 2 "MH_FILETYPE").2.2.1
     "MH_EXECUTE" (by decide),
   (instance_name_access mhFiletypeMembers 0 2 "MH_FILETYPE").2.2.2
     "MH_EXECUTE" (by decide)⟩

/-- C8: `from_param` normalization trichotomy — a same-class instance passes
through unchanged, an instance of a different enumeration class is a
`ValueError`, and a raw integer is wrapped into a new instance of the
expected class. -/
theorem from_param_trichotomy (cls ty : String) (v : Int) :
    from_param cls (.inst cls v) = .ok ⟨cls, v⟩ ∧
    (ty ≠ cls →
      from_param cls (.inst ty v) = .error "Can\x27t mix enumeration values") ∧
    from_param cls (.raw v) = .ok (mkInstance cls v) :=
  ⟨by simp [from_param], fun h => by simp [from_param, h], rfl⟩

/-- Witness for C8: the `MH_FILETYPE` class against its own instance, an
instance of a different class, and a raw integer. -/
theorem from_param_trichotomy_witness :
    from_param "MH_FILETYPE" (.inst "MH_FILETYPE" 7) = .ok ⟨"MH_FILETYPE", 7⟩ ∧
    from_param "MH_FILETYPE" (.inst "OTHER" 7) =
      .error "Can\x27t mix enumeration values" ∧
    from_param "MH_FILETYPE" (.raw 7) = .ok (mkInstance "MH_FILETYPE" 7) :=
  ⟨(from_param_trichotomy "MH_FILETYPE" "OTHER" 7).1,
   (from_param_trichotomy "MH_FILETYPE" "OTHER" 7).2.1 (by decide),
   (from_param_trichotomy "MH_FILETYPE" "OTHER" 7).2.2⟩

/-- C9: Table consistency invariant — for the tables built from any ordered
member list (duplicate names and values included), every name in
`_valuesByName` appears among the names that `_namesByValue` stores under
that same value, and every value entry of `_namesByValue` holds at least one
name. -/
theorem table_consistency (members : List Member) (s : Int) :
    (∀ (n : String) (v : Int),
      lookupValue (buildTables members s) n = some v →
      ∃ ns, lookupNames (buildTables members s) v = some ns ∧ n ∈ ns) ∧
    (∀ (v : Int) (ns : List String),
      lookupNames (buildTables members s) v = some ns → ns ≠ []) := by
  constructor
  · intro n v h
    rw [lookupValue_buildTables] at h
    have hmem := lastVal_mem _ _ _ h
    obtain ⟨ns, hns, hn⟩ := groupNames_mem _ _ _ hmem
    refine ⟨ns, ?_, hn⟩
    rw [lookupNames_buildTables]
    exact hns
  · intro v ns h
    rw [lookupNames_buildTables] at h
    exact groupNames_ne_nil _ _ _ h

/-- Witness for C9 on a list with a duplicate name (`A` declared at 5 then
redeclared at 7) and a duplicate value (5 shared by `A` and `B`). -/
theorem table_consistency_witness :
    (∃ ns,
      lookupNames (buildTables [.pair "A" 5, .pair "B" 5, .pair "A" 7] 0) 7 =
        some ns ∧ "A" ∈ ns) ∧
    (["A", "B"] : List String) ≠ [] :=
  ⟨(table_consistency [.pair "A" 5, .pair "B" 5, .pair "A" 7] 0).1 "A" 7
      (by decide),
   (table_consistency [.pair "A" 5, .pair "B" 5, .pair "A" 7] 0).2 5 ["A", "B"]
      (by decide)⟩

/-- C10: Implicit — `repr` of an instance reads `self.name` first, so it
fails (none) exactly when the `name` property fails, and the documented
`"<value NAME=VALUE of <Enumeration TypeName>>"` string is produced exactly
for instances holding declared values. -/
theorem repr_fails_like_name (t : Tables) (ty : String) (v : Int) :
    (instanceRepr t ty v = none ↔ instanceName t v = none) ∧
    (∀ ns : List String, instanceName t v = some ns →
      instanceRepr t ty v =
        some ("<value " ++ renderNames ns ++ "=" ++ toString v ++ " of " ++
          typeRepr ty ++ ">")) := by
  constructor
  · cases h : instanceName t v <;> simp [instanceRepr, h]
  · intro ns h
    simp [instanceRepr, h]

/-- Witness for C10 on `MH_FILETYPE`: the declared value 2 produces the
documented repr string, and the undeclared value 99 fails exactly as the
`name` property does. -/
theorem repr_fails_like_name_witness :
    instanceRepr mhFiletype "MH_FILETYPE" 2 =
      some ("<value " ++ renderNames ["MH_EXECUTE"] ++ "=" ++ toString (2 : Int) ++
        " of " ++ typeRepr "MH_FILETYPE" ++ ">") ∧
    (instanceRepr mhFiletype "MH_FILETYPE" 99 = none ↔
      instanceName mhFiletype 99 = none) :=
  ⟨(repr_fails_like_name mhFiletype "MH_FILETYPE" 2).2 ["MH_EXECUTE"] (by decide),
   (repr_fails_like_name mhFiletype "MH_FILETYPE" 99).1⟩

end Enumeration
